import Mathlib

/-!
# Verification of the import-map resolver specification

This development formalises, over a shallow embedding, the two pieces of
behaviour described for the `nested-dependencies-in-frontend` repository:

* the import-map **resolver** (`resolve`), the component described in the
  design spec (the repository itself ships no resolver source, only the
  tutorial text describing it, so the resolver is modelled from the spec);
* the **rollup configuration function** of `src/rollup.config.js`, which is
  real source code and is embedded directly.

Strings are modelled as lists of characters so that all operations are
structurally recursive and all concrete instances compute.
-/

set_option autoImplicit false

namespace NestedDeps

/-- Strings are modelled as lists of characters. -/
abbrev Str : Type := List Char

/-- Modelled from the spec (§3 DATA MODEL, ResolutionResult): either a
concrete target path or the report that no mapping exists. -/
inductive ResolutionResult where
  | Resolved : Str → ResolutionResult
  | Unresolved : ResolutionResult
deriving DecidableEq

/-- Modelled from the spec (§3 DATA MODEL, ImportMap): `imports` maps
specifier strings to target strings. -/
structure ImportMap where
  imports : List (Str × Str)
deriving DecidableEq

/-- The keys of an import map, in declaration order. -/
def mapKeys (m : ImportMap) : List Str := m.imports.map Prod.fst

/-- A character allowed in a URL scheme after the leading letter
(RFC 3986: ALPHA / DIGIT / plus / minus / dot). -/
def schemeChar (c : Char) : Bool :=
  c.isAlphanum || c == '+' || c == '-' || c == '.'

/-- Scans the characters after the leading letter of a candidate scheme:
succeeds on reaching a colon, fails on any other non-scheme character
or on running out of characters. -/
def schemeRest : Str → Bool
  | [] => false
  | c :: rest => if c == ':' then true else schemeChar c && schemeRest rest

/-- Whether the string starts with a URL scheme, i.e. a letter followed by
scheme characters and a colon. -/
def hasScheme : Str → Bool
  | [] => false
  | c :: rest => c.isAlpha && schemeRest rest

/-- The two-character string "./". -/
def dotSlash : Str := ['.', '/']

/-- The three-character string "../". -/
def dotDotSlash : Str := ['.', '.', '/']

/-- Modelled from the spec (§4.1 edge-case policy): a specifier that already
looks like a relative/absolute path — it starts with "./", "../", or a
scheme — bypasses the map.  A specifier for which this is false is *bare*. -/
def isNonBare (s : Str) : Bool :=
  dotSlash.isPrefixOf s || dotDotSlash.isPrefixOf s || hasScheme s

/-- Whether a key ends in a slash, i.e. is a prefix entry of the map. -/
def endsWithSlash (k : Str) : Bool := k.getLast? == some '/'

/-- The entries of the map whose key is a prefix entry (ends in a slash)
and is a prefix of the given specifier. -/
def prefixMatches (specifier : Str) (entries : List (Str × Str)) :
    List (Str × Str) :=
  entries.filter (fun e => endsWithSlash e.1 && e.1.isPrefixOf specifier)

/-- Picks an entry whose key has maximal length (the longest matching
prefix, when applied to `prefixMatches`). -/
def pickLongest : List (Str × Str) → Option (Str × Str)
  | [] => none
  | e :: rest =>
    match pickLongest rest with
    | none => some e
    | some b => if b.1.length > e.1.length then some b else some e

/-- Modelled from the spec (§4.1 Resolver):
1. a non-bare specifier bypasses the map and resolves to itself;
2. an exact key match returns that key's target;
3. otherwise the longest prefix key (ending in a slash) that the specifier
   starts with wins, and the remainder is appended to its target;
4. otherwise the specifier is unresolved. -/
def resolve (specifier : Str) (importMap : ImportMap) : ResolutionResult :=
  if isNonBare specifier then .Resolved specifier
  else
    match importMap.imports.lookup specifier with
    | some t => .Resolved t
    | none =>
      match pickLongest (prefixMatches specifier importMap.imports) with
      | some e => .Resolved (e.2 ++ specifier.drop e.1.length)
      | none => .Unresolved

/-- Modelled from the spec (§5): a call to the resolver, observing both the
returned result and the import map as it stands after the call. -/
def resolveCall (s : Str) (m : ImportMap) : ResolutionResult × ImportMap :=
  (resolve s m, m)

/-- The concrete scenario map of spec §8: lit-html with an exact entry and
a prefix entry. -/
def litHtmlMap : ImportMap :=
  ⟨[("lit-html".toList, "./node_modules/lit-html/lit-html.js".toList),
    ("lit-html/".toList, "./node_modules/lit-html/".toList)]⟩

/-- The two-prefix-keys map of spec §8: keys "a/" and "a/b/". -/
def exampleMapAB : ImportMap :=
  ⟨[(['a', '/'], ['X', '/']), (['a', '/', 'b', '/'], ['Y', '/'])]⟩

/-- A map whose sole entry would match the relative specifier "./x.js"
exactly, used to observe that non-bare specifiers bypass the map. -/
def dotMap : ImportMap := ⟨[("./x.js".toList, "other.js".toList)]⟩

/-- A JavaScript object is modelled by its own enumerable string-keyed
properties, as an association list in property order. -/
abbrev JSObj : Type := List (Str × Str)

/-- Reading a property of a JavaScript object. -/
def getField (o : JSObj) (k : Str) : Option Str := o.lookup k

/-- The effect, on such an object, of an object literal that spreads an
object and then writes one more property (as in an object literal with a
spread followed by a keyed entry): if the key is already present its value
is replaced in place, otherwise the property is appended. -/
def setField : JSObj → Str → Str → JSObj
  | [], k, v => [(k, v)]
  | e :: rest, k, v =>
    if e.1 == k then (k, v) :: rest else e :: setField rest k v

/-- The property name "rootDir". -/
def rootDirKey : Str := "rootDir".toList

/-- The `output` block of the rollup configuration object. -/
structure OutputOptions where
  dir : Str
  format : Str
deriving DecidableEq

/-- The configuration object returned by the function exported from
`src/rollup.config.js`.  The single element of `plugins` is modelled by the
options object that the source passes to the external `indexHTML` plugin. -/
structure RollupConfig where
  input : Str
  output : OutputOptions
  plugins : List JSObj
deriving DecidableEq

/-- The options object the source passes to the plugin: the spread of
`config` followed by the entry assigning `__dirname` to `rootDir`. -/
def indexHTMLArg (dirname : Str) (config : JSObj) : JSObj :=
  setField config rootDirKey dirname

/-- Embedding of the default export of `src/rollup.config.js`: a function of
the externally supplied `config`, with the ambient `__dirname` string passed
explicitly. -/
def rollupConfigFn (dirname : Str) (config : JSObj) : RollupConfig :=
  { input := "./index.html".toList
    output := { dir := "dist".toList, format := "esm".toList }
    plugins := [indexHTMLArg dirname config] }

example : resolve ("lit-html".toList) litHtmlMap
    = .Resolved ("./node_modules/lit-html/lit-html.js".toList) := by decide

example : resolve ("lit-html/directives/repeat.js".toList) litHtmlMap
    = .Resolved ("./node_modules/lit-html/directives/repeat.js".toList) := by
  decide

example : resolve ("lit-html/".toList) litHtmlMap
    = .Resolved ("./node_modules/lit-html/".toList) := by decide

example : resolve ("graphql".toList) litHtmlMap = .Unresolved := by decide

example : resolve ("./x.js".toList) litHtmlMap
    = .Resolved ("./x.js".toList) := by decide

example : resolve (['a', '/', 'b', '/', 'c']) exampleMapAB
    = .Resolved (['Y', '/', 'c']) := by decide

/-! ### Helper lemmas about association-list lookup -/

theorem lookup_eq_some_of_mem_nodup {l : List (Str × Str)} {k t : Str}
    (hmem : (k, t) ∈ l) (hnd : (l.map Prod.fst).Nodup) :
    l.lookup k = some t := by
  induction l with
  | nil => cases hmem
  | cons e rest ih =>
    obtain ⟨e1, e2⟩ := e
    rw [List.map_cons, List.nodup_cons] at hnd
    rcases List.mem_cons.mp hmem with heq | hmem'
    · injection heq with h1 h2
      subst h1; subst h2
      simp [List.lookup_cons]
    · have hne : ¬ k = e1 := by
        intro h
        subst h
        exact hnd.1 (List.mem_map.mpr ⟨_, hmem', rfl⟩)
      have hbeq : (k == e1) = false := beq_eq_false_iff_ne.mpr hne
      rw [List.lookup_cons, hbeq]
      exact ih hmem' hnd.2

theorem lookup_eq_none_of_forall_ne {l : List (Str × Str)} {s : Str}
    (h : ∀ e ∈ l, e.1 ≠ s) : l.lookup s = none := by
  induction l with
  | nil => rfl
  | cons e rest ih =>
    obtain ⟨e1, e2⟩ := e
    have hne : ¬ s = e1 := fun hc =>
      h (e1, e2) (List.mem_cons_self _ _) hc.symm
    have hbeq : (s == e1) = false := beq_eq_false_iff_ne.mpr hne
    rw [List.lookup_cons, hbeq]
    exact ih fun e he => h e (List.mem_cons_of_mem _ he)

/-! ### Helper lemmas about list-level prefixes -/

theorem isPrefixOf_self_append : ∀ (k s : Str), k.isPrefixOf (k ++ s) = true
  | [], _ => by simp
  | a :: as, s => by
    rw [List.cons_append, List.isPrefixOf_cons₂, isPrefixOf_self_append as s]
    simp

theorem isPrefixOf_append_of_length_le :
    ∀ {p k : Str} (s : Str), p.length ≤ k.length →
      p.isPrefixOf (k ++ s) = p.isPrefixOf k
  | [], k, s, _ => by simp
  | a :: as, [], s, h => by simp at h
  | a :: as, b :: bs, s, h => by
    rw [List.cons_append, List.isPrefixOf_cons₂, List.isPrefixOf_cons₂,
      isPrefixOf_append_of_length_le s (Nat.succ_le_succ_iff.mp h)]

theorem eq_of_isPrefixOf_of_length_eq :
    ∀ {p q w : Str}, p.isPrefixOf w = true → q.isPrefixOf w = true →
      p.length = q.length → p = q
  | [], q, _, _, _, hlen => (List.length_eq_zero.mp hlen.symm).symm
  | a :: as, q, [], hp, _, _ => by simp at hp
  | a :: as, [], _, _, _, hlen => by simp at hlen
  | a :: as, b :: bs, c :: w, hp, hq, hlen => by
    rw [List.isPrefixOf_cons₂, Bool.and_eq_true] at hp hq
    have ha : a = c := beq_iff_eq.mp hp.1
    have hb : b = c := beq_iff_eq.mp hq.1
    have htail : as = bs :=
      eq_of_isPrefixOf_of_length_eq hp.2 hq.2 (Nat.succ_injective hlen)
    rw [ha, hb, htail]

/-! ### Helper lemmas about the longest-prefix choice -/

theorem pickLongest_mem : ∀ {l : List (Str × Str)} {b : Str × Str},
    pickLongest l = some b → b ∈ l := by
  intro l
  induction l with
  | nil => intro b h; simp [pickLongest] at h
  | cons e rest ih =>
    intro b h
    cases hr : pickLongest rest with
    | none =>
      simp only [pickLongest, hr] at h
      exact List.mem_cons.mpr (Or.inl (Option.some.inj h).symm)
    | some c =>
      simp only [pickLongest, hr] at h
      by_cases hgt : c.1.length > e.1.length
      · rw [if_pos hgt] at h
        have hb : c = b := Option.some.inj h
        exact List.mem_cons_of_mem _ (hb ▸ ih hr)
      · rw [if_neg hgt] at h
        exact List.mem_cons.mpr (Or.inl (Option.some.inj h).symm)

theorem pickLongest_eq_longest {w : Str} :
    ∀ {l : List (Str × Str)} {k t : Str},
      (k, t) ∈ l →
      (∀ e ∈ l, e.1.isPrefixOf w = true) →
      (∀ e ∈ l, e.1.length ≤ k.length) →
      (l.map Prod.fst).Nodup →
      pickLongest l = some (k, t) := by
  intro l
  induction l with
  | nil => intro k t hmem _ _ _; cases hmem
  | cons e rest ih =>
    intro k t hmem hpre hmax hnd
    rw [List.map_cons, List.nodup_cons] at hnd
    rcases List.mem_cons.mp hmem with heq | hmem'
    · cases hr : pickLongest rest with
      | none => rw [← heq]; simp [pickLongest, hr]
      | some c =>
        have hle : c.1.length ≤ k.length :=
          hmax c (List.mem_cons_of_mem _ (pickLongest_mem hr))
        rw [← heq]
        simp only [pickLongest, hr]
        rw [if_neg (by omega)]
    · have ihr : pickLongest rest = some (k, t) :=
        ih hmem' (fun e he => hpre e (List.mem_cons_of_mem _ he))
          (fun e he => hmax e (List.mem_cons_of_mem _ he)) hnd.2
      have hlt : e.1.length < k.length := by
        have hle := hmax e (List.mem_cons_self e rest)
        rcases Nat.lt_or_ge e.1.length k.length with h | h
        · exact h
        · have heqlen : e.1.length = k.length := Nat.le_antisymm hle h
          have hek : e.1 = k :=
            eq_of_isPrefixOf_of_length_eq (hpre e (List.mem_cons_self e rest))
              (hpre (k, t) hmem) heqlen
          have hmemk : e.1 ∈ rest.map Prod.fst := by
            rw [hek]
            exact List.mem_map_of_mem Prod.fst hmem'
          exact absurd hmemk hnd.1
      simp only [pickLongest, ihr]
      rw [if_pos (by omega)]

/-! ### Bare specifiers stay bare when a suffix follows a slash -/

theorem exists_concat_of_endsWithSlash :
    ∀ {k : Str}, endsWithSlash k = true → ∃ t, k = t ++ ['/']
  | [], h => by simp [endsWithSlash] at h
  | [a], h => by
    have ha : a = '/' := by simpa [endsWithSlash] using h
    exact ⟨[], by rw [ha]; rfl⟩
  | a :: b :: rest, h => by
    have h' : endsWithSlash (b :: rest) = true := by
      simpa [endsWithSlash, List.getLast?_cons_cons] using h
    obtain ⟨t, ht⟩ := exists_concat_of_endsWithSlash h'
    exact ⟨a :: t, by rw [List.cons_append, ← ht]⟩

theorem schemeRest_append_slash :
    ∀ (xs ys : Str), schemeRest (xs ++ '/' :: ys) = schemeRest (xs ++ ['/'])
  | [], ys => by
    have h1 : ('/' == ':') = false := by decide
    have h2 : schemeChar '/' = false := by decide
    simp [schemeRest, h1, h2]
  | c :: xs, ys => by
    have ih := schemeRest_append_slash xs ys
    show (if c == ':' then true else schemeChar c && schemeRest (xs ++ '/' :: ys))
        = (if c == ':' then true else schemeChar c && schemeRest (xs ++ ['/']))
    rw [ih]

theorem hasScheme_concat_append (t s : Str) :
    hasScheme ((t ++ ['/']) ++ s) = hasScheme (t ++ ['/']) := by
  cases t with
  | nil =>
    have h : ('/').isAlpha = false := by decide
    simp [hasScheme, h]
  | cons c xs =>
    have hassoc : ((c :: xs ++ ['/']) ++ s) = c :: (xs ++ '/' :: s) := by simp
    rw [hassoc]
    simp only [List.cons_append, hasScheme, schemeRest_append_slash xs s]

theorem isNonBare_append_of_endsWithSlash {k : Str} (s : Str)
    (hslash : endsWithSlash k = true) (hbare : isNonBare k = false) :
    isNonBare (k ++ s) = false := by
  obtain ⟨t, rfl⟩ := exists_concat_of_endsWithSlash hslash
  rw [isNonBare, Bool.or_eq_false_iff, Bool.or_eq_false_iff] at hbare
  obtain ⟨⟨h1, h2⟩, h3⟩ := hbare
  rw [isNonBare, Bool.or_eq_false_iff, Bool.or_eq_false_iff]
  refine ⟨⟨?_, ?_⟩, ?_⟩
  · cases t with
    | nil =>
      have hne : ('.' == '/') = false := by decide
      simp [dotSlash, List.isPrefixOf_cons₂, hne]
    | cons c xs =>
      have hlen : dotSlash.length ≤ ((c :: xs) ++ ['/']).length := by
        simp [dotSlash]
      rw [isPrefixOf_append_of_length_le s hlen]
      exact h1
  · cases t with
    | nil =>
      have hne : ('.' == '/') = false := by decide
      simp [dotDotSlash, List.isPrefixOf_cons₂, hne]
    | cons c xs =>
      cases xs with
      | nil =>
        have hne : ('.' == '/') = false := by decide
        simp [dotDotSlash, List.isPrefixOf_cons₂, hne]
      | cons d ys =>
        have hlen : dotDotSlash.length ≤ ((c :: d :: ys) ++ ['/']).length := by
          simp [dotDotSlash]
        rw [isPrefixOf_append_of_length_le s hlen]
        exact h2
  · rw [hasScheme_concat_append]
    exact h3

/-! ### Helper lemmas about JavaScript object fields -/

theorem getField_cons (e1 e2 : Str) (rest : JSObj) (k : Str) :
    getField ((e1, e2) :: rest) k
      = if k = e1 then some e2 else getField rest k := by
  by_cases h : k = e1
  · have hb : (k == e1) = true := beq_iff_eq.mpr h
    rw [getField, List.lookup_cons, hb, if_pos h]
  · have hb : (k == e1) = false := beq_eq_false_iff_ne.mpr h
    rw [getField, List.lookup_cons, hb, if_neg h]
    rfl

theorem getField_setField :
    ∀ (o : JSObj) (k v k' : Str),
      getField (setField o k v) k'
        = if k' = k then some v else getField o k'
  | [], k, v, k' => by
    rw [setField, getField_cons]
  | (e1, e2) :: rest, k, v, k' => by
    by_cases he : e1 = k
    · have hb : ((e1, e2).1 == k) = true := beq_iff_eq.mpr he
      rw [setField, if_pos hb, getField_cons, getField_cons]
      by_cases h : k' = k
      · rw [if_pos h, if_pos h]
      · have h2 : ¬ k' = e1 := fun hc => h (hc.trans he)
        rw [if_neg h, if_neg h, if_neg h2]
    · have hb : ¬ ((e1, e2).1 == k) = true :=
        fun hc => he (beq_iff_eq.mp hc)
      rw [setField, if_neg hb, getField_cons, getField_cons]
      by_cases h2 : k' = e1
      · have hne : ¬ k' = k := fun hc => he (h2.symm.trans hc)
        rw [if_pos h2, if_neg hne, if_pos h2]
      · rw [if_neg h2, getField_setField rest k v k']
        by_cases h3 : k' = k
        · rw [if_pos h3, if_pos h3]
        · rw [if_neg h3, if_neg h3, if_neg h2]

/-! ### The claims -/

/-- C1: for every import map satisfying the data-model invariants (unique
keys; exact keys are bare module names) and every exact key `k` in
`importMap.imports` with target `t`, `resolve k importMap` returns
`Resolved t`. -/
theorem resolve_exact_key (m : ImportMap) (k t : Str)
    (hmem : (k, t) ∈ m.imports) (hnd : (mapKeys m).Nodup)
    (hbare : isNonBare k = false) :
    resolve k m = .Resolved t := by
  simp only [resolve, hbare, Bool.false_eq_true, if_false,
    lookup_eq_some_of_mem_nodup hmem hnd]

/-- Witness for C1: the exact key "lit-html" of the spec §8 scenario map. -/
theorem resolve_exact_key_witness :
    (("lit-html".toList, "./node_modules/lit-html/lit-html.js".toList)
        ∈ litHtmlMap.imports
      ∧ (mapKeys litHtmlMap).Nodup
      ∧ isNonBare ("lit-html".toList) = false)
    ∧ resolve ("lit-html".toList) litHtmlMap
        = .Resolved ("./node_modules/lit-html/lit-html.js".toList) :=
  ⟨⟨by decide, by decide, by decide⟩,
    resolve_exact_key litHtmlMap _ _ (by decide) (by decide) (by decide)⟩

/-- C5: for every specifier that starts with "./", "../", or a URL scheme
and every import map — including maps containing entries that would
otherwise match — `resolve` is the identity: it returns the specifier
itself unchanged. -/
theorem resolve_nonbare_identity (s : Str) (m : ImportMap)
    (h : isNonBare s = true) : resolve s m = .Resolved s := by
  simp [resolve, h]

/-- Witness for C5: "./x.js" resolves to itself even over a map whose sole
entry is an exact entry for "./x.js" pointing elsewhere. -/
theorem resolve_nonbare_identity_witness :
    isNonBare ("./x.js".toList) = true
    ∧ resolve ("./x.js".toList) dotMap = .Resolved ("./x.js".toList) :=
  ⟨by decide, resolve_nonbare_identity _ dotMap (by decide)⟩

/-- C6: requesting exactly a prefix key (empty remainder) resolves to the
bare prefix target: for a prefix key `k` (ending in a slash) with target
`t` in a well-formed map, `resolve k importMap = Resolved t`. -/
theorem resolve_prefix_key_itself (m : ImportMap) (k t : Str)
    (hmem : (k, t) ∈ m.imports) (hslash : endsWithSlash k = true)
    (hnd : (mapKeys m).Nodup) (hbare : isNonBare k = false) :
    resolve k m = .Resolved t := by
  simp only [resolve, hbare, Bool.false_eq_true, if_false,
    lookup_eq_some_of_mem_nodup hmem hnd]

/-- Witness for C6: requesting "lit-html/" over the spec §8 scenario map
yields "./node_modules/lit-html/". -/
theorem resolve_prefix_key_itself_witness :
    (("lit-html/".toList, "./node_modules/lit-html/".toList)
        ∈ litHtmlMap.imports
      ∧ endsWithSlash ("lit-html/".toList) = true
      ∧ (mapKeys litHtmlMap).Nodup
      ∧ isNonBare ("lit-html/".toList) = false)
    ∧ resolve ("lit-html/".toList) litHtmlMap
        = .Resolved ("./node_modules/lit-html/".toList) :=
  ⟨⟨by decide, by decide, by decide, by decide⟩,
    resolve_prefix_key_itself litHtmlMap _ _ (by decide) (by decide)
      (by decide) (by decide)⟩

/-- C7: `resolve` is pure and deterministic — two calls on equal inputs
return equal results, and a call leaves the import map value unchanged
(`resolveCall` returns the map exactly as it was passed). -/
theorem resolve_pure_deterministic (s₁ s₂ : Str) (m₁ m₂ : ImportMap)
    (hs : s₁ = s₂) (hm : m₁ = m₂) :
    resolve s₁ m₁ = resolve s₂ m₂ ∧ (resolveCall s₁ m₁).2 = m₁ := by
  subst hs
  subst hm
  exact ⟨rfl, rfl⟩

/-- Witness for C7 at the spec §8 scenario inputs. -/
theorem resolve_pure_deterministic_witness :
    resolve ("lit-html".toList) litHtmlMap
      = resolve ("lit-html".toList) litHtmlMap
    ∧ (resolveCall ("lit-html".toList) litHtmlMap).2 = litHtmlMap :=
  resolve_pure_deterministic _ _ _ _ rfl rfl

/-- C2 as stated is false on the model: over the map with prefix keys
"a/" ↦ "X/" and "a/b/" ↦ "Y/", the prefix key "a/" with suffix "b/c"
satisfies every condition of the claim (prefix key of the map, no
exact-key match for "a/b/c"), yet resolution does not return
"X/" ++ "b/c" — the longer prefix key "a/b/" wins. -/
theorem resolve_prefix_any_suffix_cex :
    ((['a', '/'], ['X', '/']) ∈ exampleMapAB.imports
      ∧ endsWithSlash ['a', '/'] = true
      ∧ (mapKeys exampleMapAB).Nodup
      ∧ (∀ e ∈ exampleMapAB.imports, e.1 ≠ ['a', '/'] ++ ['b', '/', 'c']))
    ∧ resolve (['a', '/'] ++ ['b', '/', 'c']) exampleMapAB
        ≠ .Resolved (['X', '/'] ++ ['b', '/', 'c']) := by
  decide

/-- C2 (amended): for every prefix key `k` (ending in a slash, bare) with
target `t` in a well-formed map and every suffix `s` such that `k ++ s`
has no exact-key match *and no strictly longer prefix key of the map
matches `k ++ s`*, resolution returns `Resolved (t ++ s)`: the remainder
is appended verbatim to the target, in particular no file extension is
added. -/
theorem resolve_prefix_longest (m : ImportMap) (k t s : Str)
    (hmem : (k, t) ∈ m.imports)
    (hslash : endsWithSlash k = true)
    (hnd : (mapKeys m).Nodup)
    (hbare : isNonBare k = false)
    (hnoexact : ∀ e ∈ m.imports, e.1 ≠ k ++ s)
    (hlongest : ∀ e ∈ m.imports, endsWithSlash e.1 = true →
      e.1.isPrefixOf (k ++ s) = true → e.1.length ≤ k.length) :
    resolve (k ++ s) m = .Resolved (t ++ s) := by
  have hbare' : isNonBare (k ++ s) = false :=
    isNonBare_append_of_endsWithSlash s hslash hbare
  have hlook : m.imports.lookup (k ++ s) = none :=
    lookup_eq_none_of_forall_ne hnoexact
  have hpick : pickLongest (prefixMatches (k ++ s) m.imports)
      = some (k, t) := by
    apply pickLongest_eq_longest (w := k ++ s)
    · refine List.mem_filter.mpr ⟨hmem, ?_⟩
      rw [Bool.and_eq_true]
      exact ⟨hslash, isPrefixOf_self_append k s⟩
    · intro e he
      have h2 := (List.mem_filter.mp he).2
      rw [Bool.and_eq_true] at h2
      exact h2.2
    · intro e he
      have h2 := (List.mem_filter.mp he).2
      rw [Bool.and_eq_true] at h2
      exact hlongest e (List.mem_filter.mp he).1 h2.1 h2.2
    · exact List.Nodup.sublist
        (List.Sublist.map Prod.fst (List.filter_sublist _)) hnd
  simp only [resolve, hbare', Bool.false_eq_true, if_false, hlook, hpick,
    List.drop_left]

/-- Witness for the amended C2: the deep import
"lit-html/directives/repeat.js" over the spec §8 scenario map. -/
theorem resolve_prefix_longest_witness :
    (("lit-html/".toList, "./node_modules/lit-html/".toList)
        ∈ litHtmlMap.imports
      ∧ endsWithSlash ("lit-html/".toList) = true
      ∧ (mapKeys litHtmlMap).Nodup
      ∧ isNonBare ("lit-html/".toList) = false
      ∧ (∀ e ∈ litHtmlMap.imports,
          e.1 ≠ "lit-html/".toList ++ "directives/repeat.js".toList)
      ∧ (∀ e ∈ litHtmlMap.imports, endsWithSlash e.1 = true →
          e.1.isPrefixOf
            ("lit-html/".toList ++ "directives/repeat.js".toList) = true →
          e.1.length ≤ ("lit-html/".toList).length))
    ∧ resolve ("lit-html/".toList ++ "directives/repeat.js".toList) litHtmlMap
        = .Resolved
            ("./node_modules/lit-html/".toList
              ++ "directives/repeat.js".toList) :=
  ⟨⟨by decide, by decide, by decide, by decide, by decide, by decide⟩,
    resolve_prefix_longest litHtmlMap _ _ _ (by decide) (by decide)
      (by decide) (by decide) (by decide) (by decide)⟩

/-- C3: with keys "a/" ↦ "X/" and "a/b/" ↦ "Y/", resolving "a/b/c" uses
the longest matching prefix key: the result is "Y/c", not "X/b/c". -/
theorem resolve_longest_prefix_example :
    resolve ['a', '/', 'b', '/', 'c'] exampleMapAB
      = .Resolved ['Y', '/', 'c']
    ∧ resolve ['a', '/', 'b', '/', 'c'] exampleMapAB
        ≠ .Resolved ['X', '/', 'b', '/', 'c'] := by
  decide

/-- C4: a bare specifier matched by no exact key and by no prefix key
resolves to the value `Unresolved`; moreover on every input whatsoever the
resolver returns one of the two result values — every outcome is a value,
never an exception or a process abort. -/
theorem resolve_unmatched_unresolved (m : ImportMap) (s : Str)
    (hbare : isNonBare s = false)
    (hnoexact : ∀ e ∈ m.imports, e.1 ≠ s)
    (hnopre : ∀ e ∈ m.imports, endsWithSlash e.1 = true →
      e.1.isPrefixOf s = false) :
    resolve s m = .Unresolved
    ∧ ∀ s' m', (∃ p, resolve s' m' = .Resolved p)
        ∨ resolve s' m' = .Unresolved := by
  constructor
  · have hlook : m.imports.lookup s = none :=
      lookup_eq_none_of_forall_ne hnoexact
    have hfilter : prefixMatches s m.imports = [] := by
      rw [prefixMatches, List.filter_eq_nil_iff]
      intro e he
      cases hsl : endsWithSlash e.1 with
      | false => simp [hsl]
      | true => simp [hsl, hnopre e he hsl]
    simp only [resolve, hbare, Bool.false_eq_true, if_false, hlook, hfilter,
      pickLongest]
  · intro s' m'
    cases h : resolve s' m' with
    | Resolved p => exact Or.inl ⟨p, rfl⟩
    | Unresolved => exact Or.inr rfl

/-- Witness for C4: the unmapped bare specifier "graphql" of the spec §8
scenario is Unresolved over the lit-html map. -/
theorem resolve_unmatched_unresolved_witness :
    (isNonBare ("graphql".toList) = false
      ∧ (∀ e ∈ litHtmlMap.imports, e.1 ≠ "graphql".toList)
      ∧ (∀ e ∈ litHtmlMap.imports, endsWithSlash e.1 = true →
          e.1.isPrefixOf ("graphql".toList) = false))
    ∧ resolve ("graphql".toList) litHtmlMap = .Unresolved :=
  ⟨⟨by decide, by decide, by decide⟩,
    (resolve_unmatched_unresolved litHtmlMap _ (by decide) (by decide)
      (by decide)).1⟩

/-- C8: the configuration object returned by the function exported from
`src/rollup.config.js` has `input = "./index.html"`, `output.dir = "dist"`
and `output.format = "esm"`, for every caller-supplied `config` (and any
ambient `__dirname`). -/
theorem rollupConfig_fixed_fields (dirname : Str) (config : JSObj) :
    (rollupConfigFn dirname config).input = "./index.html".toList
    ∧ (rollupConfigFn dirname config).output.dir = "dist".toList
    ∧ (rollupConfigFn dirname config).output.format = "esm".toList :=
  ⟨rfl, rfl, rfl⟩

/-- C9 as stated is false on the code: with the empty caller config and
`__dirname = "/app"`, the object handed to the plugin is not equal to the
caller's config — a `rootDir` field has been added to it. -/
theorem rollup_forwards_verbatim_cex :
    (rollupConfigFn ("/app".toList) []).plugins
        = [indexHTMLArg ("/app".toList) []]
    ∧ indexHTMLArg ("/app".toList) ([] : JSObj) ≠ ([] : JSObj)
    ∧ getField (indexHTMLArg ("/app".toList) []) rootDirKey
        = some ("/app".toList)
    ∧ getField ([] : JSObj) rootDirKey = none := by
  decide

/-- C9 (amended): the configuration function forwards `config` to the
`indexHTML` plugin with exactly one change — the `rootDir` field of the
passed object holds `__dirname` — and reading any other field of the
passed object gives exactly the caller's value for it. -/
theorem rollup_forwards_with_rootDir (dirname : Str) (config : JSObj)
    (k : Str) :
    getField (indexHTMLArg dirname config) k
      = if k = rootDirKey then some dirname else getField config k :=
  getField_setField config rootDirKey dirname k

/-- C10: the object passed to the `indexHTML` plugin has its `rootDir`
field equal to `__dirname` — overriding any `rootDir` the caller supplied
— while every field other than `rootDir` is passed through unchanged. -/
theorem indexHTMLArg_rootDir_frame (dirname : Str) (config : JSObj) :
    getField (indexHTMLArg dirname config) rootDirKey = some dirname
    ∧ ∀ k, k ≠ rootDirKey →
        getField (indexHTMLArg dirname config) k = getField config k := by
  constructor
  · simp [indexHTMLArg, getField_setField]
  · intro k hk
    simp [indexHTMLArg, getField_setField, hk]

/-- Witness for C10 at a config that does supply its own rootDir: the
caller's value is overridden by "/app" and the unrelated field "x" is
passed through unchanged. -/
theorem indexHTMLArg_rootDir_frame_witness :
    getField
        (indexHTMLArg ("/app".toList)
          [(rootDirKey, "old".toList), ("x".toList, "1".toList)])
        rootDirKey = some ("/app".toList)
    ∧ getField
        (indexHTMLArg ("/app".toList)
          [(rootDirKey, "old".toList), ("x".toList, "1".toList)])
        ("x".toList)
      = getField [(rootDirKey, "old".toList), ("x".toList, "1".toList)]
          ("x".toList) :=
  ⟨(indexHTMLArg_rootDir_frame _ _).1,
    (indexHTMLArg_rootDir_frame _ _).2 _ (by decide)⟩

end NestedDeps
